import Mathlib

/-!
Verification of the record-framing channel: a shallow embedding of the
framing codec (encode and decode over separator-delimited byte streams),
the transmit and broadcast dispatcher, the client readiness handshake and
the server-side authorization gate, together with proofs of the
specified properties.

Byte streams are modelled as lists of characters: the separators are
single ASCII characters, and every buffer operation the source performs
(concat, slice, indexOf on a one-character needle, toString, split on a
one-character separator) commutes with the identification of a string
with its character list.
-/

/-- Channel configuration, embedding the config object of the source:
RECORD_SEPARATOR and UNIT_SEPARATOR are one-character strings, and
START_OF_TRANSMISSION is the handshake marker string. -/
structure Config where
  RECORD_SEPARATOR : Char
  UNIT_SEPARATOR : Char
  START_OF_TRANSMISSION : List Char

/-- The default configuration of the source constructor:
RECORD_SEPARATOR 0x1E, UNIT_SEPARATOR 0x1F, START_OF_TRANSMISSION 0x02. -/
def defaultConfig : Config :=
  ⟨'\x1E', '\x1F', ['\x02']⟩

/-- Embedding of Array.prototype.join with a one-character separator,
as used by encode: units.join(UNIT_SEPARATOR). -/
def joinSep (sep : Char) : List (List Char) → List Char
  | [] => []
  | [u] => u
  | u :: rest => u ++ sep :: joinSep sep rest

/-- Embedding of encode: join the units with UNIT_SEPARATOR and append
one trailing RECORD_SEPARATOR. -/
def encode (cfg : Config) (units : List (List Char)) : List Char :=
  joinSep cfg.UNIT_SEPARATOR units ++ [cfg.RECORD_SEPARATOR]

/-- Embedding of String.prototype.split with a one-character separator,
as used by decode on the record slice. Always returns a nonempty list;
splitting the empty string yields one empty piece, as in the source
language. -/
def splitOnSep (sep : Char) : List Char → List (List Char)
  | [] => [[]]
  | c :: cs =>
    let r := splitOnSep sep cs
    if c = sep then [] :: r
    else (c :: r.headI) :: r.tail

/-- Embedding of Buffer.prototype.indexOf with a one-character needle:
none models the -1 sentinel of the source. -/
def indexOfChar (sep : Char) : List Char → Option Nat
  | [] => none
  | c :: cs => if c = sep then some 0 else (indexOfChar sep cs).map (· + 1)

/-- The decode loop of the source, with explicit fuel for structural
recursion: while a RECORD_SEPARATOR is present in the buffer, slice off
the prefix before it as one record, split the record on UNIT_SEPARATOR
into units, and drop past the separator. Each iteration consumes at
least one byte, so fuel equal to the buffer length never runs out. -/
def decodeFuel (cfg : Config) : Nat → List Char → List (List (List Char)) × List Char
  | 0, buf => ([], buf)
  | fuel + 1, buf =>
    match indexOfChar cfg.RECORD_SEPARATOR buf with
    | none => ([], buf)
    | some i =>
      let record := buf.take i
      let units := splitOnSep cfg.UNIT_SEPARATOR record
      let res := decodeFuel cfg fuel (buf.drop (i + 1))
      (units :: res.1, res.2)

/-- One full run of the decode loop on a buffer: yields the extracted
records in order and the unconsumed remainder. -/
def decodeRun (cfg : Config) (buf : List Char) : List (List (List Char)) × List Char :=
  decodeFuel cfg buf.length buf

/-- Embedding of one decode call on a connection: the incoming bytes are
concatenated onto the retained per-connection buffer, then the loop
extracts every complete record; the first component is the yielded
records in order, the second the new retained buffer. -/
def decode (cfg : Config) (state chunk : List Char) : List (List (List Char)) × List Char :=
  decodeRun cfg (state ++ chunk)

/-- Feeding a sequence of byte chunks to decode one call at a time, in
order, threading the retained buffer; collects all yielded records. -/
def decodeAll (cfg : Config) (state : List Char) : List (List Char) → List (List (List Char)) × List Char
  | [] => ([], state)
  | chunk :: rest =>
    let fst := decode cfg state chunk
    let snd := decodeAll cfg fst.2 rest
    (fst.1 ++ snd.1, snd.2)

example : decode defaultConfig [] (encode defaultConfig [['a'], ['b']]) = ([[['a'], ['b']]], []) := by decide
example : decode defaultConfig [] (encode defaultConfig []) = ([[[]]], []) := by decide
example : decodeAll defaultConfig [] [['a'], ['\x1F', 'b', '\x1E']] = ([[['a'], ['b']]], []) := by decide

/-! Lemmas about the split, join and index primitives. -/

lemma splitOnSep_ne_nil (sep : Char) (l : List Char) : splitOnSep sep l ≠ [] := by
  cases l with
  | nil => simp [splitOnSep]
  | cons c cs =>
    simp only [splitOnSep]
    split <;> simp

lemma splitOnSep_of_not_mem (sep : Char) (l : List Char) (h : sep ∉ l) :
    splitOnSep sep l = [l] := by
  induction l with
  | nil => rfl
  | cons c cs ih =>
    have hc : c ≠ sep := fun hc => h (by simp [hc])
    have hcs : sep ∉ cs := fun hm => h (by simp [hm])
    simp [splitOnSep, hc, ih hcs, List.headI]

lemma splitOnSep_sep_cons (sep : Char) (t : List Char) :
    splitOnSep sep (sep :: t) = [] :: splitOnSep sep t := by
  simp [splitOnSep]

lemma splitOnSep_append_sep (sep : Char) (u t : List Char) (h : sep ∉ u) :
    splitOnSep sep (u ++ sep :: t) = u :: splitOnSep sep t := by
  induction u with
  | nil => simp [splitOnSep_sep_cons]
  | cons c cs ih =>
    have hc : c ≠ sep := fun hc => h (by simp [hc])
    have hcs : sep ∉ cs := fun hm => h (by simp [hm])
    have h2 := ih hcs
    simp only [List.cons_append, splitOnSep, List.append_eq]
    rw [if_neg hc, h2]
    simp [List.headI]

lemma mem_splitOnSep_not_mem (sep : Char) (l : List Char) :
    ∀ x ∈ splitOnSep sep l, sep ∉ x := by
  induction l with
  | nil => simp [splitOnSep]
  | cons c cs ih =>
    intro x hx
    by_cases hc : c = sep
    · subst hc
      rw [splitOnSep_sep_cons] at hx
      rcases List.mem_cons.mp hx with hx | hx
      · simp [hx]
      · exact ih x hx
    · obtain ⟨r, rest, hr⟩ : ∃ r rest, splitOnSep sep cs = r :: rest := by
        cases h' : splitOnSep sep cs with
        | nil => exact absurd h' (splitOnSep_ne_nil sep cs)
        | cons r rest => exact ⟨r, rest, rfl⟩
      simp only [splitOnSep, if_neg hc, hr, List.headI, List.tail] at hx
      rcases List.mem_cons.mp hx with hx | hx
      · subst hx
        intro hmem
        rcases List.mem_cons.mp hmem with h1 | h1
        · exact hc h1.symm
        · exact ih r (by simp [hr]) h1
      · exact ih x (by simp [hr, hx])

lemma not_mem_joinSep (sep c : Char) (units : List (List Char))
    (hc : c ≠ sep) (h : ∀ u ∈ units, c ∉ u) : c ∉ joinSep sep units := by
  induction units with
  | nil => simp [joinSep]
  | cons u rest ih =>
    cases rest with
    | nil => simpa [joinSep] using h u (by simp)
    | cons v vs =>
      simp only [joinSep, List.mem_append, List.mem_cons]
      push_neg
      refine ⟨h u (by simp), hc, ?_⟩
      have := ih (fun w hw => h w (by simp [List.mem_cons.mp hw]))
      simpa [joinSep] using this

lemma splitOnSep_joinSep (sep : Char) (units : List (List Char))
    (hne : units ≠ []) (h : ∀ u ∈ units, sep ∉ u) :
    splitOnSep sep (joinSep sep units) = units := by
  induction units with
  | nil => exact absurd rfl hne
  | cons u rest ih =>
    cases rest with
    | nil => simpa [joinSep] using splitOnSep_of_not_mem sep u (h u (by simp))
    | cons v vs =>
      have hu : sep ∉ u := h u (by simp)
      have hrest : ∀ w ∈ v :: vs, sep ∉ w := fun w hw => h w (by simp [hw])
      have : joinSep sep (u :: v :: vs) = u ++ sep :: joinSep sep (v :: vs) := by
        simp [joinSep]
      rw [this, splitOnSep_append_sep sep u _ hu, ih (by simp) hrest]

lemma joinSep_length (sep : Char) (units : List (List Char)) :
    (joinSep sep units).length = (units.map List.length).sum + (units.length - 1) := by
  induction units with
  | nil => simp [joinSep]
  | cons u rest ih =>
    cases rest with
    | nil => simp [joinSep]
    | cons v vs =>
      have : joinSep sep (u :: v :: vs) = u ++ sep :: joinSep sep (v :: vs) := by
        simp [joinSep]
      rw [this]
      simp only [List.length_append, List.length_cons, List.map_cons, List.sum_cons] at ih ⊢
      omega

lemma indexOfChar_of_not_mem (sep : Char) (l : List Char) (h : sep ∉ l) :
    indexOfChar sep l = none := by
  induction l with
  | nil => rfl
  | cons c cs ih =>
    have hc : c ≠ sep := fun hc => h (by simp [hc])
    have hcs : sep ∉ cs := fun hm => h (by simp [hm])
    simp [indexOfChar, hc, ih hcs]

lemma indexOfChar_append_sep (sep : Char) (u t : List Char) (h : sep ∉ u) :
    indexOfChar sep (u ++ sep :: t) = some u.length := by
  induction u with
  | nil => simp [indexOfChar]
  | cons c cs ih =>
    have hc : c ≠ sep := fun hc => h (by simp [hc])
    have hcs : sep ∉ cs := fun hm => h (by simp [hm])
    simp [indexOfChar, hc, ih hcs]

lemma indexOfChar_lt_length (sep : Char) (l : List Char) (i : Nat)
    (h : indexOfChar sep l = some i) : i < l.length := by
  induction l generalizing i with
  | nil => simp [indexOfChar] at h
  | cons c cs ih =>
    by_cases hc : c = sep
    · simp only [indexOfChar, if_pos hc, Option.some.injEq] at h
      simp only [List.length_cons]
      omega
    · simp only [indexOfChar, if_neg hc] at h
      cases hcs : indexOfChar sep cs with
      | none => rw [hcs] at h; exact Option.noConfusion h
      | some j =>
        rw [hcs] at h
        have h' : j + 1 = i := Option.some.inj h
        have := ih j hcs
        simp only [List.length_cons]
        omega

lemma exists_first_split (sep : Char) (l : List Char) (h : sep ∈ l) :
    ∃ pre rest, l = pre ++ sep :: rest ∧ sep ∉ pre := by
  induction l with
  | nil => simp at h
  | cons c cs ih =>
    by_cases hc : c = sep
    · exact ⟨[], cs, by simp [hc], by simp⟩
    · rcases List.mem_cons.mp h with h1 | h1
      · exact absurd h1.symm hc
      · obtain ⟨pre, rest, hpre, hni⟩ := ih h1
        refine ⟨c :: pre, rest, by simp [hpre], ?_⟩
        intro hmem
        rcases List.mem_cons.mp hmem with h2 | h2
        · exact hc h2.symm
        · exact hni h2

lemma decodeFuel_nil (cfg : Config) (n : Nat) : decodeFuel cfg n [] = ([], []) := by
  cases n <;> simp [decodeFuel, indexOfChar]

lemma decodeFuel_no_sep (cfg : Config) (buf : List Char) (h : cfg.RECORD_SEPARATOR ∉ buf)
    (n : Nat) : decodeFuel cfg n buf = ([], buf) := by
  cases n with
  | zero => rfl
  | succ m => simp [decodeFuel, indexOfChar_of_not_mem _ _ h]

lemma decodeFuel_fuel_irrel (cfg : Config) :
    ∀ n m (buf : List Char), buf.length ≤ n → buf.length ≤ m →
      decodeFuel cfg n buf = decodeFuel cfg m buf := by
  intro n
  induction n with
  | zero =>
    intro m buf hn _
    have : buf = [] := List.length_eq_zero.mp (Nat.le_zero.mp hn)
    subst this
    rw [decodeFuel_nil, decodeFuel_nil]
  | succ k ih =>
    intro m buf hn hm
    cases hidx : indexOfChar cfg.RECORD_SEPARATOR buf with
    | none =>
      have hns : cfg.RECORD_SEPARATOR ∉ buf := by
        intro hmem
        obtain ⟨pre, rest, hpre, hni⟩ := exists_first_split _ _ hmem
        rw [hpre, indexOfChar_append_sep _ _ _ hni] at hidx
        exact Option.noConfusion hidx
      rw [decodeFuel_no_sep cfg buf hns, decodeFuel_no_sep cfg buf hns]
    | some i =>
      have hi := indexOfChar_lt_length _ _ _ hidx
      have hbufpos : 0 < buf.length := Nat.lt_of_le_of_lt (Nat.zero_le i) hi
      cases m with
      | zero => omega
      | succ p =>
        have hdrop : (buf.drop (i + 1)).length ≤ k := by
          rw [List.length_drop]
          omega
        have hdrop' : (buf.drop (i + 1)).length ≤ p := by
          rw [List.length_drop]
          omega
        simp only [decodeFuel, hidx]
        rw [ih p (buf.drop (i + 1)) hdrop hdrop']

lemma decodeRun_nil (cfg : Config) : decodeRun cfg [] = ([], []) := rfl

lemma decodeRun_no_sep (cfg : Config) (buf : List Char) (h : cfg.RECORD_SEPARATOR ∉ buf) :
    decodeRun cfg buf = ([], buf) :=
  decodeFuel_no_sep cfg buf h _

lemma decodeRun_step (cfg : Config) (pre rest : List Char) (h : cfg.RECORD_SEPARATOR ∉ pre) :
    decodeRun cfg (pre ++ cfg.RECORD_SEPARATOR :: rest) =
      (splitOnSep cfg.UNIT_SEPARATOR pre :: (decodeRun cfg rest).1, (decodeRun cfg rest).2) := by
  have hlen : (pre ++ cfg.RECORD_SEPARATOR :: rest).length = pre.length + rest.length + 1 := by
    simp [List.length_append]
    omega
  have hidx := indexOfChar_append_sep cfg.RECORD_SEPARATOR pre rest h
  have htake : (pre ++ cfg.RECORD_SEPARATOR :: rest).take pre.length = pre :=
    List.take_left pre _
  have hdrop : (pre ++ cfg.RECORD_SEPARATOR :: rest).drop (pre.length + 1) = rest := by
    have : pre ++ cfg.RECORD_SEPARATOR :: rest = (pre ++ [cfg.RECORD_SEPARATOR]) ++ rest := by
      simp
    rw [this]
    exact List.drop_left' (by simp)
  show decodeFuel cfg (pre ++ cfg.RECORD_SEPARATOR :: rest).length _ = _
  rw [hlen]
  simp only [decodeFuel, hidx, htake, hdrop]
  rw [decodeFuel_fuel_irrel cfg (pre.length + rest.length) rest.length rest
    (by omega) (le_refl _)]
  rfl

/-! Lemmas characterizing the decode loop. -/

lemma decodeRun_eq_splits_aux (cfg : Config) :
    ∀ n (buf : List Char), buf.length ≤ n →
      decodeRun cfg buf =
        ((splitOnSep cfg.RECORD_SEPARATOR buf).dropLast.map (splitOnSep cfg.UNIT_SEPARATOR),
         (splitOnSep cfg.RECORD_SEPARATOR buf).getLastD [])
  := fun n => by
  induction n with
  | zero =>
    intro buf hn
    have : buf = [] := List.length_eq_zero.mp (Nat.le_zero.mp hn)
    subst this
    simp [decodeRun_nil, splitOnSep]
  | succ k ih =>
    intro buf hn
    by_cases hmem : cfg.RECORD_SEPARATOR ∈ buf
    · obtain ⟨pre, rest, hpre, hni⟩ := exists_first_split _ _ hmem
      subst hpre
      rw [decodeRun_step cfg pre rest hni, splitOnSep_append_sep _ _ _ hni]
      obtain ⟨s, ss, hS⟩ : ∃ s ss, splitOnSep cfg.RECORD_SEPARATOR rest = s :: ss := by
        cases h' : splitOnSep cfg.RECORD_SEPARATOR rest with
        | nil => exact absurd h' (splitOnSep_ne_nil _ _)
        | cons s ss => exact ⟨s, ss, rfl⟩
      have hrest : rest.length ≤ k := by
        have := List.length_append pre (cfg.RECORD_SEPARATOR :: rest)
        simp only [List.length_cons] at this
        omega
      rw [ih rest hrest, hS]
      simp [List.dropLast_cons_of_ne_nil, List.getLastD]
    · rw [decodeRun_no_sep cfg buf hmem, splitOnSep_of_not_mem _ _ hmem]
      simp [List.getLastD]

lemma decodeRun_eq_splits (cfg : Config) (buf : List Char) :
    decodeRun cfg buf =
      ((splitOnSep cfg.RECORD_SEPARATOR buf).dropLast.map (splitOnSep cfg.UNIT_SEPARATOR),
       (splitOnSep cfg.RECORD_SEPARATOR buf).getLastD []) :=
  decodeRun_eq_splits_aux cfg buf.length buf (le_refl _)

lemma decodeRun_remainder_no_sep (cfg : Config) (buf : List Char) :
    cfg.RECORD_SEPARATOR ∉ (decodeRun cfg buf).2 := by
  rw [decodeRun_eq_splits]
  obtain ⟨s, ss, hS⟩ : ∃ s ss, splitOnSep cfg.RECORD_SEPARATOR buf = s :: ss := by
    cases h' : splitOnSep cfg.RECORD_SEPARATOR buf with
    | nil => exact absurd h' (splitOnSep_ne_nil _ _)
    | cons s ss => exact ⟨s, ss, rfl⟩
  have hmem : (s :: ss).getLastD [] ∈ s :: ss := by
    rw [List.getLastD_cons]
    exact List.getLastD_mem_cons ss s
  simp only [hS]
  exact mem_splitOnSep_not_mem _ _ _ (by rw [hS]; exact hmem)

lemma decodeRun_records_ne_nil (cfg : Config) (buf : List Char) :
    ∀ r ∈ (decodeRun cfg buf).1, r ≠ [] := by
  intro r hr
  rw [decodeRun_eq_splits] at hr
  simp only [List.mem_map] at hr
  obtain ⟨x, _, hx⟩ := hr
  rw [← hx]
  exact splitOnSep_ne_nil _ _

lemma decodeRun_append_aux (cfg : Config) :
    ∀ n (a : List Char), a.length ≤ n → ∀ b,
      decodeRun cfg (a ++ b) =
        ((decodeRun cfg a).1 ++ (decodeRun cfg ((decodeRun cfg a).2 ++ b)).1,
         (decodeRun cfg ((decodeRun cfg a).2 ++ b)).2)
  := fun n => by
  induction n with
  | zero =>
    intro a ha b
    have : a = [] := List.length_eq_zero.mp (Nat.le_zero.mp ha)
    subst this
    simp [decodeRun_nil]
  | succ k ih =>
    intro a ha b
    by_cases hmem : cfg.RECORD_SEPARATOR ∈ a
    · obtain ⟨pre, rest, hpre, hni⟩ := exists_first_split _ _ hmem
      subst hpre
      have hrest : rest.length ≤ k := by
        have := List.length_append pre (cfg.RECORD_SEPARATOR :: rest)
        simp only [List.length_cons] at this
        omega
      have hassoc : (pre ++ cfg.RECORD_SEPARATOR :: rest) ++ b
          = pre ++ cfg.RECORD_SEPARATOR :: (rest ++ b) := by simp
      rw [hassoc, decodeRun_step cfg pre _ hni, decodeRun_step cfg pre rest hni,
        ih rest hrest b]
      simp
    · rw [decodeRun_no_sep cfg a hmem]
      simp

lemma decodeRun_append (cfg : Config) (a b : List Char) :
    decodeRun cfg (a ++ b) =
      ((decodeRun cfg a).1 ++ (decodeRun cfg ((decodeRun cfg a).2 ++ b)).1,
       (decodeRun cfg ((decodeRun cfg a).2 ++ b)).2) :=
  decodeRun_append_aux cfg a.length a (le_refl _) b

lemma decodeAll_eq_join (cfg : Config) (chunks : List (List Char)) :
    ∀ state, cfg.RECORD_SEPARATOR ∉ state →
      decodeAll cfg state chunks = decode cfg state chunks.flatten := by
  induction chunks with
  | nil =>
    intro state hs
    simp [decodeAll, decode, decodeRun_no_sep cfg state hs]
  | cons c cs ih =>
    intro state hs
    have hrem := decodeRun_remainder_no_sep cfg (state ++ c)
    have ihc := ih (decodeRun cfg (state ++ c)).2 hrem
    simp only [decodeAll, decode] at ihc ⊢
    rw [ihc]
    have hassoc : state ++ (c :: cs).flatten = (state ++ c) ++ cs.flatten := by
      simp [List.flatten_cons]
    rw [hassoc, decodeRun_append cfg (state ++ c) cs.flatten]

lemma decode_encode_single (cfg : Config) (units : List (List Char))
    (hsep : cfg.RECORD_SEPARATOR ≠ cfg.UNIT_SEPARATOR)
    (hfree : ∀ u ∈ units, cfg.RECORD_SEPARATOR ∉ u) :
    decode cfg [] (encode cfg units) =
      ([splitOnSep cfg.UNIT_SEPARATOR (joinSep cfg.UNIT_SEPARATOR units)], []) := by
  have hni : cfg.RECORD_SEPARATOR ∉ joinSep cfg.UNIT_SEPARATOR units :=
    not_mem_joinSep _ _ units hsep hfree
  have : decode cfg [] (encode cfg units)
      = decodeRun cfg (joinSep cfg.UNIT_SEPARATOR units ++ cfg.RECORD_SEPARATOR :: []) := by
    simp [decode, encode]
  rw [this, decodeRun_step cfg _ [] hni, decodeRun_nil]

/-! Model of the transmit and broadcast dispatcher. The only socket
attribute the dispatcher reads is the writable flag; sockets carry an
identity so distinct destinations stay distinguishable. -/

/-- A destination connection as the dispatcher sees it: an identity and
the writable flag of the underlying stream at call time. -/
structure Socket where
  sid : Nat
  writable : Bool
deriving DecidableEq

/-- The transmit error object of the source: its code, its cause text,
the offending socket attached to the error object, and the record field
that the public transmit operation adds on failure (absent on the error
as the private write helper raises it). -/
structure TransmitError where
  ecode : String
  cause : String
  socket : Socket
  record : Option (List (List Char))
deriving DecidableEq

/-- Embedding of the private write helper: if the socket is writable the
record is written and returned; otherwise it raises a transmit error
with the code E_TCP_RECORD_CHANNEL_TRANSMIT, the cause text, and the
socket attached. -/
def transmitRaw (sock : Socket) (record : List Char) : Except TransmitError (List Char) :=
  if sock.writable then Except.ok record
  else Except.error ⟨"E_TCP_RECORD_CHANNEL_TRANSMIT", "Socket is not writable", sock, none⟩

/-- Embedding of transmit: encode once, write once through the private
helper; when the raised error carries the transmit code, the original
units are attached to it as its record field before rethrowing. -/
def transmit (cfg : Config) (sock : Socket) (units : List (List Char)) :
    Except TransmitError (List Char) :=
  match transmitRaw sock (encode cfg units) with
  | Except.ok w => Except.ok w
  | Except.error e =>
    Except.error (if e.ecode = "E_TCP_RECORD_CHANNEL_TRANSMIT"
      then ⟨e.ecode, e.cause, e.socket, some units⟩ else e)

/-- The broadcast error object of the source: code
E_TCP_RECORD_CHANNEL_BROADCAST, the original units, and the ordered list
of per-destination transmit errors as its cause. -/
structure BroadcastError where
  ecode : String
  record : List (List Char)
  cause : List TransmitError
deriving DecidableEq

/-- The attempt loop of broadcast: try the private write helper on every
socket in order, collecting the successful writes and the raised
per-destination errors, both in attempt order. -/
def broadcastAttempts (record : List Char) : List Socket → List (Socket × List Char) × List TransmitError
  | [] => ([], [])
  | s :: rest =>
    let acc := broadcastAttempts record rest
    match transmitRaw s record with
    | Except.ok w => ((s, w) :: acc.1, acc.2)
    | Except.error e => (acc.1, e :: acc.2)

/-- Embedding of broadcast: encode once, attempt every socket in order,
then raise one aggregate error when at least one attempt failed, else
succeed silently. The first component records the writes performed. -/
def broadcast (cfg : Config) (sockets : List Socket) (units : List (List Char)) :
    List (Socket × List Char) × Except BroadcastError Unit :=
  let record := encode cfg units
  let res := broadcastAttempts record sockets
  (res.1,
   if res.2 = [] then Except.ok ()
   else Except.error ⟨"E_TCP_RECORD_CHANNEL_BROADCAST", units, res.2⟩)

/-! Model of the client-side readiness handshake. The connect promise is
settled by the first of three one-shot events: the close event, the
error event, or the first data event, whose bytes are compared against
the START_OF_TRANSMISSION marker. -/

/-- The first event a freshly connected client socket observes. -/
inductive ClientEvent where
  | closed
  | errored (reason : String)
  | data (bytes : List Char)
deriving DecidableEq

/-- The cause attached to a client-connect failure: the connection
closed before the marker arrived, the first bytes were not the marker,
or the raw transport error surfaced unmodified. -/
inductive ConnectCause where
  | closedBeforeReady
  | invalidReadySignal (received : List Char)
  | transport (reason : String)
deriving DecidableEq

/-- The client-connect error object: code
E_TCP_RECORD_CHANNEL_CLIENT_CONNECT, its message, and its cause. -/
structure ClientError where
  ecode : String
  msg : String
  cause : ConnectCause
deriving DecidableEq

/-- Embedding of the client creation handshake: the outcome of the
connect promise as settled by the first event, paired with whether the
code destroyed the socket. On close before data: reject with the
closed-before-ready cause. On a transport error: reject with the raw
reason as cause. On first data: accept when the bytes equal the
START_OF_TRANSMISSION marker (wiring subsequent data through decode),
otherwise destroy the socket and reject with the invalid-ready-signal
cause carrying the received bytes. -/
def createClientStep (cfg : Config) : ClientEvent → Except ClientError Unit × Bool
  | ClientEvent.closed =>
    (Except.error ⟨"E_TCP_RECORD_CHANNEL_CLIENT_CONNECT", "Could not connect to server",
      ConnectCause.closedBeforeReady⟩, false)
  | ClientEvent.errored reason =>
    (Except.error ⟨"E_TCP_RECORD_CHANNEL_CLIENT_CONNECT", "Error when connecting to server",
      ConnectCause.transport reason⟩, false)
  | ClientEvent.data bytes =>
    if bytes = cfg.START_OF_TRANSMISSION then (Except.ok (), false)
    else (Except.error ⟨"E_TCP_RECORD_CHANNEL_CLIENT_CONNECT", "Server not ready",
      ConnectCause.invalidReadySignal bytes⟩, true)

/-! Model of the server-side connection admission. -/

/-- The per-connection state onConnection leaves behind: the reassembly
buffer entry of the weak map (none when never created), whether the data
event was wired to the decoding handler, and whether the socket was
destroyed. -/
structure ConnState where
  buffer : Option (List Char)
  dataWired : Bool
  destroyed : Bool
deriving DecidableEq

/-- Embedding of onConnection after the authorization callback ran: an
authorized socket gets an empty reassembly buffer and its data event
wired to the decoding handler; an unauthorized socket is destroyed with
neither. -/
def onConnection (authorized : Bool) : ConnState :=
  if authorized then ⟨some [], true, false⟩ else ⟨none, false, true⟩

/-- Record notifications emitted for a connection over a sequence of
byte arrivals: each wired data event runs decode on the retained buffer
and emits one notification per yielded record; a connection whose data
event was never wired emits nothing. -/
def recordsEmitted (cfg : Config) (st : ConnState) (arrivals : List (List Char)) :
    List (List (List Char)) :=
  match st.buffer, st.dataWired with
  | some buf, true => (decodeAll cfg buf arrivals).1
  | _, _ => []

/-- Modelled from the spec: the transport contract of the destroyed
socket, which is not part of the repository sources (it is the stream
primitive the spec treats as an external collaborator). A destroyed
connection is not writable afterward. -/
def writableAfter (st : ConnState) (transportWritable : Bool) : Bool :=
  transportWritable && !st.destroyed

/-! Shared corollaries used by the claim theorems. -/

lemma decode_rs_only (cfg : Config) :
    decode cfg [] [cfg.RECORD_SEPARATOR] = ([[[]]], []) := by
  have h : decode cfg [] [cfg.RECORD_SEPARATOR]
      = decodeRun cfg ([] ++ cfg.RECORD_SEPARATOR :: []) := by
    simp [decode]
  rw [h, decodeRun_step cfg [] [] (by simp), decodeRun_nil]
  rfl

/-! The claim theorems. -/

/-- C1, counterexample: at the empty unit sequence the claim fails: decoding
encode of no units from an empty buffer yields one record holding a single
empty unit, not a record whose unit sequence is empty. -/
theorem decode_encode_roundtrip_cex :
    ¬ (decode defaultConfig [] (encode defaultConfig ([] : List (List Char)))
        = ([([] : List (List Char))], [])) := by decide

/-- C1, as amended: for every nonempty finite sequence of units in which no
unit contains the RECORD_SEPARATOR or UNIT_SEPARATOR character (the two
separators being distinct), running decode from an empty buffer on the bytes
produced by encode yields exactly one record whose unit sequence equals the
units, and leaves the buffer empty. -/
theorem decode_encode_roundtrip (cfg : Config) (units : List (List Char))
    (hsep : cfg.RECORD_SEPARATOR ≠ cfg.UNIT_SEPARATOR)
    (hne : units ≠ [])
    (hfree : ∀ u ∈ units, cfg.RECORD_SEPARATOR ∉ u ∧ cfg.UNIT_SEPARATOR ∉ u) :
    decode cfg [] (encode cfg units) = ([units], []) := by
  rw [decode_encode_single cfg units hsep (fun u hu => (hfree u hu).1)]
  rw [splitOnSep_joinSep _ units hne (fun u hu => (hfree u hu).2)]

/-- C1, witness: the round trip at a concrete two-unit record. -/
theorem decode_encode_roundtrip_witness :
    decode defaultConfig [] (encode defaultConfig [['a'], ['b']]) = ([[['a'], ['b']]], []) :=
  decode_encode_roundtrip defaultConfig [['a'], ['b']] (by decide) (by decide) (by decide)

/-- C2: for every unit sequence free of separator characters and every
partition of its encoding into ordered byte chunks, feeding the chunks to
decode one call at a time from an empty buffer yields the same outcome as
feeding the whole encoding in one call (the partial trailing record being
retained in the buffer between calls and never discarded), and that common
outcome is exactly one record. -/
theorem decode_fragmentation_independence (cfg : Config) (units : List (List Char))
    (chunks : List (List Char))
    (hsep : cfg.RECORD_SEPARATOR ≠ cfg.UNIT_SEPARATOR)
    (hfree : ∀ u ∈ units, cfg.RECORD_SEPARATOR ∉ u ∧ cfg.UNIT_SEPARATOR ∉ u)
    (hjoin : chunks.flatten = encode cfg units) :
    decodeAll cfg [] chunks = decode cfg [] (encode cfg units) ∧
    (decodeAll cfg [] chunks).1.length = 1 := by
  have h1 : decodeAll cfg [] chunks = decode cfg [] chunks.flatten :=
    decodeAll_eq_join cfg chunks [] (by simp)
  rw [hjoin] at h1
  refine ⟨h1, ?_⟩
  rw [h1, decode_encode_single cfg units hsep (fun u hu => (hfree u hu).1)]
  rfl

/-- C2, witness: a concrete one-record encoding split into two chunks. -/
theorem decode_fragmentation_independence_witness :
    decodeAll defaultConfig [] [['a'], ['\x1E']]
      = decode defaultConfig [] (encode defaultConfig [['a']]) ∧
    (decodeAll defaultConfig [] [['a'], ['\x1E']]).1.length = 1 :=
  decode_fragmentation_independence defaultConfig [['a']] [['a'], ['\x1E']]
    (by decide) (by decide) (by decide)

/-- C3, counterexample: with A the empty unit sequence, the concatenated
encodings do not decode to the records A then B: the first record carries a
single empty unit instead of no units. -/
theorem multi_record_packing_cex :
    ¬ (decode defaultConfig []
        (encode defaultConfig ([] : List (List Char)) ++ encode defaultConfig [['a']])
        = ([[], [['a']]], [])) := by decide

/-- C3, as amended: for all nonempty unit sequences A and B free of separator
characters, feeding encode of A concatenated with encode of B to decode in one
call from an empty buffer yields exactly the records A then B in that order;
and in general the records a decode run produces are positionally the
separator-delimited segments of the byte stream, in the exact order their
terminating RECORD_SEPARATOR bytes appear. -/
theorem multi_record_packing (cfg : Config) (A B : List (List Char))
    (hsep : cfg.RECORD_SEPARATOR ≠ cfg.UNIT_SEPARATOR)
    (hA : A ≠ []) (hB : B ≠ [])
    (hfreeA : ∀ u ∈ A, cfg.RECORD_SEPARATOR ∉ u ∧ cfg.UNIT_SEPARATOR ∉ u)
    (hfreeB : ∀ u ∈ B, cfg.RECORD_SEPARATOR ∉ u ∧ cfg.UNIT_SEPARATOR ∉ u) :
    decode cfg [] (encode cfg A ++ encode cfg B) = ([A, B], []) ∧
    ∀ buf, (decodeRun cfg buf).1 =
      (splitOnSep cfg.RECORD_SEPARATOR buf).dropLast.map (splitOnSep cfg.UNIT_SEPARATOR) := by
  constructor
  · have hniA : cfg.RECORD_SEPARATOR ∉ joinSep cfg.UNIT_SEPARATOR A :=
      not_mem_joinSep _ _ A hsep (fun u hu => (hfreeA u hu).1)
    have hniB : cfg.RECORD_SEPARATOR ∉ joinSep cfg.UNIT_SEPARATOR B :=
      not_mem_joinSep _ _ B hsep (fun u hu => (hfreeB u hu).1)
    have hshape : decode cfg [] (encode cfg A ++ encode cfg B)
        = decodeRun cfg (joinSep cfg.UNIT_SEPARATOR A
            ++ cfg.RECORD_SEPARATOR :: (joinSep cfg.UNIT_SEPARATOR B
            ++ cfg.RECORD_SEPARATOR :: [])) := by
      simp [decode, encode]
    rw [hshape, decodeRun_step cfg _ _ hniA, decodeRun_step cfg _ [] hniB, decodeRun_nil]
    rw [splitOnSep_joinSep _ A hA (fun u hu => (hfreeA u hu).2),
      splitOnSep_joinSep _ B hB (fun u hu => (hfreeB u hu).2)]
  · intro buf
    rw [decodeRun_eq_splits]

/-- C3, witness: two concrete one-unit records packed in one call. -/
theorem multi_record_packing_witness :
    decode defaultConfig [] (encode defaultConfig [['a']] ++ encode defaultConfig [['b']])
        = ([[['a']], [['b']]], []) ∧
    ∀ buf, (decodeRun defaultConfig buf).1 =
      (splitOnSep defaultConfig.RECORD_SEPARATOR buf).dropLast.map
        (splitOnSep defaultConfig.UNIT_SEPARATOR) :=
  multi_record_packing defaultConfig [['a']] [['b']]
    (by decide) (by decide) (by decide) (by decide) (by decide)

/-- C4, counterexample: decoding the single RECORD_SEPARATOR byte does not
yield a record whose unit sequence is empty; the record carries one empty
unit. -/
theorem encode_nil_roundtrip_cex :
    ¬ ((decode defaultConfig [] (encode defaultConfig [])).1
        = [([] : List (List Char))]) := by decide

/-- C4, as amended: encode of no units produces exactly the single
RECORD_SEPARATOR byte, and decoding that byte from an empty buffer yields one
record whose unit sequence is the single empty unit, leaving the buffer
empty. -/
theorem encode_nil_spec (cfg : Config) :
    encode cfg [] = [cfg.RECORD_SEPARATOR] ∧
    decode cfg [] (encode cfg []) = ([[[]]], []) := by
  refine ⟨rfl, ?_⟩
  have h : encode cfg ([] : List (List Char)) = [cfg.RECORD_SEPARATOR] := rfl
  rw [h]
  exact decode_rs_only cfg

/-- C5: encode equals the units joined by UNIT_SEPARATOR followed by one
trailing RECORD_SEPARATOR, and its output length is the sum of the unit
lengths plus one separator less than the unit count plus one terminator, a
lone terminator byte when there are no units. -/
theorem encode_shape_length (cfg : Config) (units : List (List Char)) :
    encode cfg units = joinSep cfg.UNIT_SEPARATOR units ++ [cfg.RECORD_SEPARATOR] ∧
    (encode cfg units).length = (units.map List.length).sum + (units.length - 1) + 1 := by
  refine ⟨rfl, ?_⟩
  simp [encode, List.length_append, joinSep_length]

/-- C10: every record decode yields carries at least one unit, and encode is
not injective: the zero-unit record and the record of one empty unit encode
to identical bytes, both decoding to the single record holding one empty
unit. -/
theorem records_nonempty_encode_collision (cfg : Config) :
    (∀ state chunk, ∀ r ∈ (decode cfg state chunk).1, r ≠ []) ∧
    encode cfg [] = encode cfg [[]] ∧
    decode cfg [] (encode cfg [[]]) = ([[[]]], []) := by
  refine ⟨?_, rfl, ?_⟩
  · intro state chunk r hr
    exact decodeRun_records_ne_nil cfg (state ++ chunk) r hr
  · have h : encode cfg [[]] = [cfg.RECORD_SEPARATOR] := rfl
    rw [h]
    exact decode_rs_only cfg

lemma broadcastAttempts_spec (record : List Char) (sockets : List Socket) :
    broadcastAttempts record sockets =
      ((sockets.filter (fun s => s.writable)).map (fun s => (s, record)),
       (sockets.filter (fun s => !s.writable)).map
         (fun s => ⟨"E_TCP_RECORD_CHANNEL_TRANSMIT", "Socket is not writable", s, none⟩)) := by
  induction sockets with
  | nil => rfl
  | cons s rest ih =>
    by_cases hw : s.writable
    · simp [broadcastAttempts, transmitRaw, hw, ih, List.filter_cons]
    · simp [broadcastAttempts, transmitRaw, hw, ih, List.filter_cons]

/-- C6: broadcast encodes once and attempts a write to every destination in
input order, a failure on one destination never preventing the rest: the
writes performed are exactly those to the writable destinations, in order,
each carrying the one encoded record; when at least one destination is not
writable it raises exactly one aggregate broadcast error carrying the
original units whose cause is the ordered sequence of the per-destination
transmit failures, and when none failed it succeeds silently. -/
theorem broadcast_spec (cfg : Config) (sockets : List Socket) (units : List (List Char)) :
    (broadcast cfg sockets units).1
      = (sockets.filter (fun s => s.writable)).map (fun s => (s, encode cfg units)) ∧
    (broadcast cfg sockets units).2
      = (if sockets.filter (fun s => !s.writable) = [] then Except.ok ()
         else Except.error ⟨"E_TCP_RECORD_CHANNEL_BROADCAST", units,
           (sockets.filter (fun s => !s.writable)).map
             (fun s => ⟨"E_TCP_RECORD_CHANNEL_TRANSMIT", "Socket is not writable",
               s, none⟩)⟩) := by
  constructor
  · simp [broadcast, broadcastAttempts_spec]
  · simp only [broadcast, broadcastAttempts_spec]
    by_cases h : sockets.filter (fun s => !s.writable) = []
    · simp [h]
    · simp [h]

/-- C7: transmit fails exactly when the destination is not writable at call
time; on failure the error carries the transmit code, the offending socket
and the original units, and on a writable destination it returns the one
encoded record it wrote, without error. -/
theorem transmit_spec (cfg : Config) (sock : Socket) (units : List (List Char)) :
    ((∃ e, transmit cfg sock units = Except.error e) ↔ sock.writable = false) ∧
    transmit cfg sock units
      = (if sock.writable then Except.ok (encode cfg units)
         else Except.error ⟨"E_TCP_RECORD_CHANNEL_TRANSMIT", "Socket is not writable",
            sock, some units⟩) := by
  cases hw : sock.writable <;> simp [transmit, transmitRaw, hw]

/-- C8: a client connect that does not reach a usable state always fails with
the client-connect error code, its cause exactly one of closed-before-ready
for a close before the marker, the raw transport reason surfaced unmodified
for a transport error, or invalid-ready-signal carrying the received bytes
for first data differing from the START_OF_TRANSMISSION marker, in which
case alone the socket is also destroyed; first data equal to the marker
accepts the connection as ready, wiring subsequent bytes through decode. -/
theorem create_client_spec (cfg : Config) :
    createClientStep cfg ClientEvent.closed
      = (Except.error ⟨"E_TCP_RECORD_CHANNEL_CLIENT_CONNECT", "Could not connect to server",
          ConnectCause.closedBeforeReady⟩, false) ∧
    (∀ r, createClientStep cfg (ClientEvent.errored r)
      = (Except.error ⟨"E_TCP_RECORD_CHANNEL_CLIENT_CONNECT", "Error when connecting to server",
          ConnectCause.transport r⟩, false)) ∧
    createClientStep cfg (ClientEvent.data cfg.START_OF_TRANSMISSION) = (Except.ok (), false) ∧
    (∀ b, b ≠ cfg.START_OF_TRANSMISSION →
      createClientStep cfg (ClientEvent.data b)
        = (Except.error ⟨"E_TCP_RECORD_CHANNEL_CLIENT_CONNECT", "Server not ready",
            ConnectCause.invalidReadySignal b⟩, true)) ∧
    (∀ ev e d, createClientStep cfg ev = (Except.error e, d)
      → e.ecode = "E_TCP_RECORD_CHANNEL_CLIENT_CONNECT") := by
  refine ⟨rfl, fun r => rfl, by simp [createClientStep],
    fun b hb => by simp [createClientStep, hb], ?_⟩
  intro ev e d h
  cases ev with
  | closed =>
    simp only [createClientStep, Prod.mk.injEq] at h
    have he := Except.error.inj h.1
    rw [← he]
  | errored r =>
    simp only [createClientStep, Prod.mk.injEq] at h
    have he := Except.error.inj h.1
    rw [← he]
  | data b =>
    by_cases hb : b = cfg.START_OF_TRANSMISSION
    · simp [createClientStep, hb] at h
    · simp only [createClientStep, if_neg hb, Prod.mk.injEq] at h
      have he := Except.error.inj h.1
      rw [← he]

/-- C9: a server-side connection whose authorization callback yields false
never gets a record notification for any bytes that arrive, never gets a
reassembly buffer, is destroyed, and is not writable afterward. -/
theorem unauthorized_discard (cfg : Config) (transportWritable : Bool)
    (arrivals : List (List Char)) :
    recordsEmitted cfg (onConnection false) arrivals = [] ∧
    (onConnection false).buffer = none ∧
    (onConnection false).destroyed = true ∧
    writableAfter (onConnection false) transportWritable = false := by
  refine ⟨rfl, rfl, rfl, ?_⟩
  simp [writableAfter, onConnection]
